import Mathlib

/-!
Verification of the RTL-aware response formatter and admin routes of the
car-service booking backend.

The JSON-like payloads handled by `formatResponse` in
`src/backend/middleware/rtlSupport.js` are modelled as mutually inductive
trees: a value is a primitive, an object (an ordered list of
key/value entries, as JavaScript objects preserve insertion order), or an
array.  JavaScript property assignment `processed[key] = value` updates the
value in place when the key exists and appends otherwise; `insertJS` models
this exactly.
-/

/-- JavaScript primitive values that can occur in a JSON-like payload. -/
inductive Prim where
  | pnull : Prim
  | pbool : Bool → Prim
  | pnum : Int → Prim
  | pstr : String → Prim
deriving DecidableEq, Repr

mutual
/-- A JSON-like value: primitive, object (ordered fields) or array. -/
inductive JValue where
  | prim : Prim → JValue
  | obj : JFields → JValue
  | arr : JList → JValue
deriving DecidableEq, Repr

/-- The ordered entry list of a JavaScript object. -/
inductive JFields where
  | nil : JFields
  | cons : String → JValue → JFields → JFields
deriving DecidableEq, Repr

/-- The element list of a JavaScript array. -/
inductive JList where
  | nil : JList
  | cons : JValue → JList → JList
deriving DecidableEq, Repr
end

/-- The JavaScript test `key.endsWith("Ar")`: the last two characters of
the key are `A` then `r`. -/
def endsWithAr (s : String) : Bool :=
  match s.data.reverse with
  | 'r' :: 'A' :: _ => true
  | _ => false

/-- The JavaScript expression `key.slice(0, -2)`: the key without its last
two characters. -/
def sliceDropTwo (s : String) : String := ⟨s.data.dropLast.dropLast⟩

/-- JavaScript property assignment `o[k] = v` on an object with ordered
entries: overwrite in place when `k` is already a key, append otherwise. -/
def insertJS : JFields → String → JValue → JFields
  | .nil, k, v => .cons k v .nil
  | .cons k' v' rest, k, v =>
    if k' = k then .cons k' v rest else .cons k' v' (insertJS rest k v)

/-- The keys of an object's entry list, in order. -/
def jkeys : JFields → List String
  | .nil => []
  | .cons k _ rest => k :: jkeys rest

/-- Lookup of the value stored under a key (first occurrence). -/
def jlookup : JFields → String → Option JValue
  | .nil, _ => none
  | .cons k' v rest, k => if k' = k then some v else jlookup rest k

mutual
/-- `processObject` from `formatResponse` in
`src/backend/middleware/rtlSupport.js`, on reference-acyclic payloads
(where the `seen` guard never fires): primitives are returned as-is,
arrays map the recursion over their items, and objects are rebuilt entry
by entry: a key ending in `"Ar"` is collapsed to its base key with the
raw (unprocessed) value when `isRTL`, dropped otherwise; any other key is
kept with the recursively processed value. -/
def processObject (isRTL : Bool) : JValue → JValue
  | .prim p => .prim p
  | .arr items => .arr (processList isRTL items)
  | .obj fields => .obj (processFields isRTL fields .nil)
termination_by structural v => v

/-- `obj.map((item) => processObject(item))` over array items. -/
def processList (isRTL : Bool) : JList → JList
  | .nil => .nil
  | .cons v rest => .cons (processObject isRTL v) (processList isRTL rest)
termination_by structural l => l

/-- The `for (const [key, value] of Object.entries(obj))` loop of
`processObject`, building the `processed` accumulator with JavaScript
assignment semantics. -/
def processFields (isRTL : Bool) : JFields → JFields → JFields
  | .nil, acc => acc
  | .cons k v rest, acc =>
    if endsWithAr k then
      if isRTL then
        processFields isRTL rest (insertJS acc (sliceDropTwo k) v)
      else
        processFields isRTL rest acc
    else
      processFields isRTL rest (insertJS acc k (processObject isRTL v))
termination_by structural f _ => f
end

/-- JavaScript falsiness of a JSON-like value (`!data`). -/
def isFalsy : JValue → Bool
  | .prim .pnull => true
  | .prim (.pbool b) => !b
  | .prim (.pnum n) => n == 0
  | .prim (.pstr s) => s == ""
  | _ => false

/-- `formatResponse(data, req)` from `src/backend/middleware/rtlSupport.js`:
falsy data is returned unchanged, otherwise the payload is processed by
`processObject` with the request's direction. -/
def formatResponse (isRTL : Bool) (data : JValue) : JValue :=
  if isFalsy data then data else processObject isRTL data

/-- Concatenation of two entry lists. -/
def jappend : JFields → JFields → JFields
  | .nil, g => g
  | .cons k v rest, g => .cons k v (jappend rest g)

/-- Induction on the entry-list spine of a `JFields` (the nested `JValue`s
are not recursed into). -/
theorem jfieldsSpineInduction {motive : JFields → Prop} (hnil : motive .nil)
    (hcons : ∀ k v rest, motive rest → motive (.cons k v rest)) :
    ∀ f, motive f
  | .nil => hnil
  | .cons k v rest => hcons k v rest (jfieldsSpineInduction hnil hcons rest)
termination_by structural f => f

/-- Induction on the spine of a `JList`. -/
theorem jlistSpineInduction {motive : JList → Prop} (hnil : motive .nil)
    (hcons : ∀ v rest, motive rest → motive (.cons v rest)) :
    ∀ l, motive l
  | .nil => hnil
  | .cons v rest => hcons v rest (jlistSpineInduction hnil hcons rest)
termination_by structural l => l

theorem jappend_assoc (f g h : JFields) :
    jappend (jappend f g) h = jappend f (jappend g h) := by
  induction f using jfieldsSpineInduction with
  | hnil => rfl
  | hcons k v rest ih => simp [jappend, ih]

theorem jkeys_jappend (f g : JFields) :
    jkeys (jappend f g) = jkeys f ++ jkeys g := by
  induction f using jfieldsSpineInduction with
  | hnil => rfl
  | hcons k v rest ih => simp [jappend, jkeys, ih]

theorem endsWithAr_append (k : String) : endsWithAr (k ++ "Ar") = true := by
  have hAr : ("Ar" : String).data = ['A', 'r'] := rfl
  unfold endsWithAr
  rw [String.data_append, hAr, List.reverse_append]
  rfl

theorem sliceDropTwo_append (k : String) : sliceDropTwo (k ++ "Ar") = k := by
  have hAr : ("Ar" : String).data = ['A', 'r'] := rfl
  apply String.ext
  show ((k ++ "Ar").data.dropLast.dropLast) = k.data
  rw [String.data_append, hAr]
  have h2 : k.data ++ ['A', 'r'] = (k.data ++ ['A']) ++ ['r'] := by simp
  rw [h2, List.dropLast_concat, List.dropLast_concat]

theorem endsWithAr_decomp {k : String} (h : endsWithAr k = true) :
    sliceDropTwo k ++ "Ar" = k := by
  have hAr : ("Ar" : String).data = ['A', 'r'] := rfl
  unfold endsWithAr at h
  split at h
  · next t heq =>
    have hk : k.data = t.reverse ++ ['A', 'r'] := by
      have := congrArg List.reverse heq
      simpa using this
    apply String.ext
    show (sliceDropTwo k).data ++ ("Ar" : String).data = k.data
    have hslice : (sliceDropTwo k).data = k.data.dropLast.dropLast := rfl
    rw [hslice, hk]
    have h2 : t.reverse ++ ['A', 'r'] = (t.reverse ++ ['A']) ++ ['r'] := by simp
    rw [h2, List.dropLast_concat, List.dropLast_concat, hAr]
    simp
  · exact absurd h (by simp)

theorem mem_jkeys_insertJS (acc : JFields) (k : String) (v : JValue) (a : String) :
    a ∈ jkeys (insertJS acc k v) ↔ a ∈ jkeys acc ∨ a = k := by
  induction acc using jfieldsSpineInduction with
  | hnil => simp [insertJS, jkeys]
  | hcons k' v' rest ih =>
    by_cases hk : k' = k
    · subst hk
      simp only [insertJS, if_pos rfl, jkeys]
      constructor
      · exact Or.inl
      · rintro (h | rfl)
        · exact h
        · exact List.mem_cons_self _ _
    · simp only [insertJS, if_neg hk, jkeys, List.mem_cons, ih]
      tauto

theorem jlookup_insertJS_self (acc : JFields) (k : String) (v : JValue) :
    jlookup (insertJS acc k v) k = some v := by
  induction acc using jfieldsSpineInduction with
  | hnil => simp [insertJS, jlookup]
  | hcons k' v' rest ih =>
    by_cases hk : k' = k
    · subst hk; simp [insertJS, jlookup]
    · simp [insertJS, if_neg hk, jlookup, hk, ih]

theorem jlookup_insertJS_ne (acc : JFields) (k : String) (v : JValue) (a : String)
    (h : a ≠ k) : jlookup (insertJS acc k v) a = jlookup acc a := by
  induction acc using jfieldsSpineInduction with
  | hnil => simp [insertJS, jlookup, Ne.symm h]
  | hcons k' v' rest ih =>
    by_cases hk : k' = k
    · have hne : k' ≠ a := by rw [hk]; exact fun hh => h hh.symm
      simp [insertJS, if_pos hk, jlookup, hne]
    · by_cases hka : k' = a <;> simp [insertJS, if_neg hk, jlookup, hka, h, ih]

theorem insertJS_not_mem (acc : JFields) (k : String) (v : JValue)
    (h : k ∉ jkeys acc) : insertJS acc k v = jappend acc (.cons k v .nil) := by
  induction acc using jfieldsSpineInduction with
  | hnil => rfl
  | hcons k' v' rest ih =>
    have hk : k' ≠ k := fun hh => h (by simp [jkeys, hh])
    have hrest : k ∉ jkeys rest := fun hh => h (by simp [jkeys, hh])
    simp [insertJS, if_neg hk, jappend, ih hrest]

/-- The output key an entry with key `k` contributes under direction
`isRTL`: an `Ar`-suffixed key collapses to its base key when `isRTL` and is
dropped otherwise; any other key is kept. -/
def outKey (isRTL : Bool) (k : String) : Option String :=
  if endsWithAr k then (if isRTL then some (sliceDropTwo k) else none) else some k

/-- The value the last entry of `f` contributing output key `a` writes into
the `processed` accumulator: the raw value for a collapsed `Ar` key, the
recursively processed value otherwise.  `none` when no entry contributes
`a`. -/
def lastEmit (isRTL : Bool) : JFields → String → Option JValue
  | .nil, _ => none
  | .cons k v rest, a =>
    match lastEmit isRTL rest a with
    | some u => some u
    | none =>
      if outKey isRTL k = some a then
        some (if endsWithAr k then v else processObject isRTL v)
      else none
termination_by structural f => f

theorem processFields_cons_ar_rtl {k : String} (h : endsWithAr k = true)
    (v : JValue) (rest acc : JFields) :
    processFields true (.cons k v rest) acc
      = processFields true rest (insertJS acc (sliceDropTwo k) v) := by
  simp [processFields, h]

theorem processFields_cons_ar_ltr {k : String} (h : endsWithAr k = true)
    (v : JValue) (rest acc : JFields) :
    processFields false (.cons k v rest) acc = processFields false rest acc := by
  simp [processFields, h]

theorem processFields_cons_plain {k : String} (h : endsWithAr k = false)
    (d : Bool) (v : JValue) (rest acc : JFields) :
    processFields d (.cons k v rest) acc
      = processFields d rest (insertJS acc k (processObject d v)) := by
  simp [processFields, h]

theorem lastEmit_cons (d : Bool) (k : String) (v : JValue) (rest : JFields)
    (a : String) :
    lastEmit d (.cons k v rest) a =
      match lastEmit d rest a with
      | some u => some u
      | none =>
        if outKey d k = some a then
          some (if endsWithAr k then v else processObject d v)
        else none := rfl

theorem lastEmit_cons_eq_none {d : Bool} {k : String} {v : JValue}
    {rest : JFields} {a : String} :
    lastEmit d (.cons k v rest) a = none
      ↔ lastEmit d rest a = none ∧ outKey d k ≠ some a := by
  rw [lastEmit_cons]
  cases hle : lastEmit d rest a with
  | none => by_cases ho : outKey d k = some a <;> simp [ho]
  | some u => simp

theorem lastEmit_cons_eq_some {d : Bool} {k : String} {v u : JValue}
    {rest : JFields} {a : String} :
    lastEmit d (.cons k v rest) a = some u
      ↔ (lastEmit d rest a = some u
          ∨ (lastEmit d rest a = none ∧ outKey d k = some a
              ∧ u = (if endsWithAr k then v else processObject d v))) := by
  rw [lastEmit_cons]
  cases hle : lastEmit d rest a with
  | none =>
    by_cases ho : outKey d k = some a
    · simp only [ho, if_pos]
      constructor
      · intro h
        exact Or.inr ⟨trivial, trivial, (Option.some_injective _ h).symm⟩
      · rintro (h | ⟨-, -, rfl⟩)
        · exact absurd h (by simp)
        · rfl
    · simp [ho]
  | some u' => simp

theorem lastEmit_cons_isSome {d : Bool} {k : String} {v : JValue}
    {rest : JFields} {a : String} :
    (lastEmit d (.cons k v rest) a).isSome
      ↔ (lastEmit d rest a).isSome ∨ outKey d k = some a := by
  rw [lastEmit_cons]
  cases hle : lastEmit d rest a with
  | none => by_cases ho : outKey d k = some a <;> simp [ho]
  | some u => simp

theorem jlookup_processFields_none {d : Bool} {a : String} :
    ∀ (f : JFields), lastEmit d f a = none →
      ∀ acc, jlookup (processFields d f acc) a = jlookup acc a := by
  intro f
  induction f using jfieldsSpineInduction with
  | hnil => intro _ acc; rfl
  | hcons k v rest ih =>
    intro h acc
    obtain ⟨hrest, hout⟩ := lastEmit_cons_eq_none.mp h
    by_cases hAr : endsWithAr k
    · cases d with
      | true =>
        have hne : a ≠ sliceDropTwo k := by
          intro hh
          exact hout (by subst hh; simp [outKey, hAr])
        rw [processFields_cons_ar_rtl hAr, ih hrest,
          jlookup_insertJS_ne _ _ _ _ hne]
      | false =>
        rw [processFields_cons_ar_ltr hAr, ih hrest]
    · have hArf : endsWithAr k = false := by simpa using hAr
      have hne : a ≠ k := by
        intro hh
        exact hout (by subst hh; simp [outKey, hArf])
      rw [processFields_cons_plain hArf d, ih hrest,
        jlookup_insertJS_ne _ _ _ _ hne]

theorem jlookup_processFields_some {d : Bool} {a : String} {u : JValue} :
    ∀ (f : JFields), lastEmit d f a = some u →
      ∀ acc, jlookup (processFields d f acc) a = some u := by
  intro f
  induction f using jfieldsSpineInduction with
  | hnil => intro h; exact absurd h (by simp [lastEmit])
  | hcons k v rest ih =>
    intro h acc
    rcases lastEmit_cons_eq_some.mp h with hrest | ⟨hrest, ho, hu⟩
    · by_cases hAr : endsWithAr k
      · cases d with
        | true => rw [processFields_cons_ar_rtl hAr]; exact ih hrest _
        | false => rw [processFields_cons_ar_ltr hAr]; exact ih hrest _
      · have hArf : endsWithAr k = false := by simpa using hAr
        rw [processFields_cons_plain hArf d]
        exact ih hrest _
    · by_cases hAr : endsWithAr k
      · have hd : d = true := by
          by_contra hd
          have hdf : d = false := by simpa using hd
          rw [hdf] at ho
          simp [outKey, hAr] at ho
        subst hd
        have hk : sliceDropTwo k = a := by simpa [outKey, hAr] using ho
        have hu' : u = v := by rw [hu, hAr]; simp
        rw [processFields_cons_ar_rtl hAr, jlookup_processFields_none rest hrest,
          ← hk, hu']
        exact jlookup_insertJS_self _ _ _
      · have hArf : endsWithAr k = false := by simpa using hAr
        have hk : k = a := by simpa [outKey, hArf] using ho
        have hu' : u = processObject d v := by rw [hu, hArf]; simp
        rw [processFields_cons_plain hArf d,
          jlookup_processFields_none rest hrest, ← hk, hu']
        exact jlookup_insertJS_self _ _ _

theorem mem_jkeys_processFields {d : Bool} {a : String} :
    ∀ (f : JFields) (acc : JFields),
      a ∈ jkeys (processFields d f acc)
        ↔ a ∈ jkeys acc ∨ (lastEmit d f a).isSome := by
  intro f
  induction f using jfieldsSpineInduction with
  | hnil => intro acc; simp [processFields, lastEmit]
  | hcons k v rest ih =>
    intro acc
    rw [show ((lastEmit d (.cons k v rest) a).isSome = true)
        ↔ ((lastEmit d rest a).isSome ∨ outKey d k = some a)
      from lastEmit_cons_isSome]
    by_cases hAr : endsWithAr k
    · cases d with
      | true =>
        rw [processFields_cons_ar_rtl hAr, ih, mem_jkeys_insertJS]
        have hiff : outKey true k = some a ↔ a = sliceDropTwo k := by
          simp [outKey, hAr, eq_comm]
        rw [hiff]
        tauto
      | false =>
        rw [processFields_cons_ar_ltr hAr, ih]
        have hiff : ¬ outKey false k = some a := by simp [outKey, hAr]
        tauto
    · have hArf : endsWithAr k = false := by simpa using hAr
      rw [processFields_cons_plain hArf d, ih, mem_jkeys_insertJS]
      have hiff : outKey d k = some a ↔ a = k := by
        simp [outKey, hArf, eq_comm]
      rw [hiff]
      tauto

/-- JavaScript property read `value[k]` on a JSON-like value: `undefined`
(`none`) unless the value is an object having the key. -/
def jsGet : JValue → String → Option JValue
  | .obj f, k => jlookup f k
  | _, _ => none

/-- Pairwise-distinct keys, as JavaScript object entry lists always have. -/
def nodupKeys : List String → Bool
  | [] => true
  | k :: rest => !(rest.contains k) && nodupKeys rest

theorem nodupKeys_cons {k : String} {rest : List String} :
    nodupKeys (k :: rest) = true ↔ k ∉ rest ∧ nodupKeys rest = true := by
  simp [nodupKeys]

theorem lastEmit_false_eq_none :
    ∀ (f : JFields) (a : String),
      (endsWithAr a = true ∨ a ∉ jkeys f) → lastEmit false f a = none := by
  intro f
  induction f using jfieldsSpineInduction with
  | hnil => intro a _; rfl
  | hcons k v rest ih =>
    intro a hplain
    have hplain' : endsWithAr a = true ∨ a ∉ jkeys rest := by
      rcases hplain with h | h
      · exact Or.inl h
      · exact Or.inr fun hh => h (by simp [jkeys, hh])
    rw [lastEmit_cons, ih a hplain']
    have hout : outKey false k ≠ some a := by
      intro ho
      by_cases hAr : endsWithAr k
      · simp [outKey, hAr] at ho
      · have hArf : endsWithAr k = false := by simpa using hAr
        have hk : k = a := by simpa [outKey, hArf] using ho
        rcases hplain with h | h
        · rw [hk] at hArf; rw [h] at hArf; cases hArf
        · exact h (by simp [jkeys, hk])
    simp [hout]

theorem lastEmit_true_eq_none :
    ∀ (f : JFields) (a : String),
      (endsWithAr a = true ∨ a ∉ jkeys f) → (a ++ "Ar") ∉ jkeys f →
      lastEmit true f a = none := by
  intro f
  induction f using jfieldsSpineInduction with
  | hnil => intro a _ _; rfl
  | hcons k v rest ih =>
    intro a hplain har
    have hplain' : endsWithAr a = true ∨ a ∉ jkeys rest := by
      rcases hplain with h | h
      · exact Or.inl h
      · exact Or.inr fun hh => h (by simp [jkeys, hh])
    have har' : (a ++ "Ar") ∉ jkeys rest := fun hh => har (by simp [jkeys, hh])
    rw [lastEmit_cons, ih a hplain' har']
    have hout : outKey true k ≠ some a := by
      intro ho
      by_cases hAr : endsWithAr k
      · have hk : sliceDropTwo k = a := by simpa [outKey, hAr] using ho
        have : a ++ "Ar" = k := by rw [← hk]; exact endsWithAr_decomp hAr
        exact har (by simp [jkeys, this])
      · have hArf : endsWithAr k = false := by simpa using hAr
        have hk : k = a := by simpa [outKey, hArf] using ho
        rcases hplain with h | h
        · rw [hk] at hArf; rw [h] at hArf; cases hArf
        · exact h (by simp [jkeys, hk])
    simp [hout]

theorem lastEmit_true_of_lookup :
    ∀ (f : JFields) (K : String) (w : JValue),
      nodupKeys (jkeys f) = true →
      jlookup f (K ++ "Ar") = some w →
      K ∉ jkeys f →
      lastEmit true f K = some w := by
  intro f
  induction f using jfieldsSpineInduction with
  | hnil => intro K w _ hlook _; exact absurd hlook (by simp [jlookup])
  | hcons k v rest ih =>
    intro K w hnodup hlook hK
    obtain ⟨hk_not, hnodup'⟩ := nodupKeys_cons.mp (by simpa [jkeys] using hnodup)
    have hK' : K ∉ jkeys rest := fun hh => hK (by simp [jkeys, hh])
    by_cases hk : k = K ++ "Ar"
    · have hv : v = w := by
        have : jlookup (.cons k v rest) (K ++ "Ar") = some v := by
          simp [jlookup, hk]
        rw [this] at hlook
        exact Option.some_injective _ hlook
      have hrest : lastEmit true rest K = none := by
        apply lastEmit_true_eq_none rest K (Or.inr hK')
        rw [← hk]
        exact fun hh => hk_not hh
      rw [lastEmit_cons, hrest]
      have hAr : endsWithAr k = true := hk ▸ endsWithAr_append K
      have hout : outKey true k = some K := by
        simp [outKey, hk, endsWithAr_append, sliceDropTwo_append]
      simp [hout, hAr, hv]
    · have hlook' : jlookup rest (K ++ "Ar") = some w := by
        have hne : k ≠ K ++ "Ar" := hk
        simpa [jlookup, hne] using hlook
      rw [lastEmit_cons, ih K w hnodup' hlook' hK']

/-- C1: for an object whose only two keys are `foo` and `fooAr`:
formatting under `rtl` with `foo` first yields only `foo` bound to
`fooAr`'s raw value; under `rtl` with `fooAr` first the later plain `foo`
entry overwrites it, leaving `foo` bound to the recursively processed
original value; under `ltr` (either order) only `foo` remains, bound to
the recursively processed original value. -/
theorem c1_pair_collapse (v w : JValue) :
    formatResponse true (.obj (.cons "foo" v (.cons "fooAr" w .nil)))
        = .obj (.cons "foo" w .nil)
    ∧ formatResponse false (.obj (.cons "foo" v (.cons "fooAr" w .nil)))
        = .obj (.cons "foo" (processObject false v) .nil)
    ∧ formatResponse true (.obj (.cons "fooAr" w (.cons "foo" v .nil)))
        = .obj (.cons "foo" (processObject true v) .nil)
    ∧ formatResponse false (.obj (.cons "fooAr" w (.cons "foo" v .nil)))
        = .obj (.cons "foo" (processObject false v) .nil) := by
  have h1 : endsWithAr "foo" = false := by decide
  have h2 : endsWithAr "fooAr" = true := by decide
  have h3 : sliceDropTwo "fooAr" = "foo" := by decide
  refine ⟨?_, ?_, ?_, ?_⟩ <;>
    simp [formatResponse, isFalsy, processObject, processFields, insertJS,
      h1, h2, h3]

/-- C1: counterexample to order-independence: with insertion order
`fooAr` before `foo`, formatting under `rtl` binds `foo` to the original
`foo` value `2`, not to `fooAr`'s value `1` as the claim requires. -/
theorem c1_cex :
    formatResponse true
        (.obj (.cons "fooAr" (.prim (.pnum 1)) (.cons "foo" (.prim (.pnum 2)) .nil)))
      = .obj (.cons "foo" (.prim (.pnum 2)) .nil)
    ∧ (JValue.obj (.cons "foo" (.prim (.pnum 2)) .nil)
        ≠ .obj (.cons "foo" (.prim (.pnum 1)) .nil)) := by
  constructor
  · decide
  · decide

/-- C9: for an object with pairwise-distinct keys containing `K ++ "Ar"`
(bound to `w`) but neither the base key `K` nor the key `K ++ "ArAr"`:
under `rtl` the output binds `K` to the raw value `w`; the key
`K ++ "Ar"` is absent from the output in both directions; under `ltr` the
entry is dropped entirely, so the output binds neither `K ++ "Ar"` nor
`K`.  (The extra `K ++ "ArAr"` exclusion is needed: such a key would
itself collapse to `K ++ "Ar"` under `rtl`.) -/
theorem c9_unpaired_ar (f : JFields) (K : String) (w : JValue)
    (hnodup : nodupKeys (jkeys f) = true)
    (hlook : jlookup f (K ++ "Ar") = some w)
    (hK : K ∉ jkeys f)
    (hKArAr : (K ++ "ArAr") ∉ jkeys f) :
    jsGet (formatResponse true (.obj f)) K = some w
    ∧ jsGet (formatResponse true (.obj f)) (K ++ "Ar") = none
    ∧ jsGet (formatResponse false (.obj f)) K = none
    ∧ jsGet (formatResponse false (.obj f)) (K ++ "Ar") = none := by
  have hfr : ∀ d, jsGet (formatResponse d (.obj f)) = jlookup (processFields d f .nil) := by
    intro d; rfl
  have hArAr : (K ++ "Ar") ++ "Ar" = K ++ "ArAr" := by
    rw [String.append_assoc]
    rfl
  refine ⟨?_, ?_, ?_, ?_⟩
  · rw [hfr]
    exact jlookup_processFields_some f (lastEmit_true_of_lookup f K w hnodup hlook hK) _
  · rw [hfr]
    rw [jlookup_processFields_none f
      (lastEmit_true_eq_none f (K ++ "Ar") (Or.inl (endsWithAr_append K))
        (hArAr ▸ hKArAr))]
    rfl
  · rw [hfr]
    rw [jlookup_processFields_none f (lastEmit_false_eq_none f K (Or.inr hK))]
    rfl
  · rw [hfr]
    rw [jlookup_processFields_none f
      (lastEmit_false_eq_none f (K ++ "Ar") (Or.inl (endsWithAr_append K)))]
    rfl

/-- C9 witness: the object `{fooAr: 1}` at `K = "foo"`. -/
theorem c9_unpaired_ar_witness :
    jsGet (formatResponse true (.obj (.cons "fooAr" (.prim (.pnum 1)) .nil))) "foo"
        = some (.prim (.pnum 1))
    ∧ jsGet (formatResponse true (.obj (.cons "fooAr" (.prim (.pnum 1)) .nil))) ("foo" ++ "Ar")
        = none
    ∧ jsGet (formatResponse false (.obj (.cons "fooAr" (.prim (.pnum 1)) .nil))) "foo"
        = none
    ∧ jsGet (formatResponse false (.obj (.cons "fooAr" (.prim (.pnum 1)) .nil))) ("foo" ++ "Ar")
        = none :=
  c9_unpaired_ar (.cons "fooAr" (.prim (.pnum 1)) .nil) "foo" (.prim (.pnum 1))
    (by decide) (by decide) (by decide) (by decide)

/-- C9 counterexample: in `{fooAr: 1, fooArAr: 2}` the key `fooAr` has no
base key `foo`, yet under `rtl` the output does contain the key `fooAr`
(the collapse of `fooArAr`), contradicting the claim that `K ++ "Ar"`
never appears in the output. -/
theorem c9_cex :
    formatResponse true
        (.obj (.cons "fooAr" (.prim (.pnum 1)) (.cons "fooArAr" (.prim (.pnum 2)) .nil)))
      = .obj (.cons "foo" (.prim (.pnum 1)) (.cons "fooAr" (.prim (.pnum 2)) .nil))
    ∧ jsGet (formatResponse true
        (.obj (.cons "fooAr" (.prim (.pnum 1)) (.cons "fooArAr" (.prim (.pnum 2)) .nil))))
        "fooAr" ≠ none := by
  constructor
  · decide
  · decide

/-- C2 counterexample: the object `{fooAr: {x: 1, xAr: 2}}` under `rtl`:
the inner object is reachable in the input (as the value of the selected
`Ar` key), yet its pair (`x`, `xAr`) does not collapse — `xAr` survives in
the output, contradicting the claim that every pair at every depth
collapses. -/
theorem c2_cex :
    formatResponse true
        (.obj (.cons "fooAr" (.obj (.cons "x" (.prim (.pnum 1))
          (.cons "xAr" (.prim (.pnum 2)) .nil))) .nil))
      = .obj (.cons "foo" (.obj (.cons "x" (.prim (.pnum 1))
          (.cons "xAr" (.prim (.pnum 2)) .nil))) .nil)
    ∧ (JValue.obj (.cons "x" (.prim (.pnum 1))
          (.cons "xAr" (.prim (.pnum 2)) .nil))
        ≠ .obj (.cons "x" (.prim (.pnum 2)) .nil)) := by
  constructor
  · decide
  · decide

theorem jappend_nil_right (f : JFields) : jappend f .nil = f := by
  induction f using jfieldsSpineInduction with
  | hnil => rfl
  | hcons k v rest ih => simp [jappend, ih]

mutual
/-- Well-formedness of a JSON-like value as a JavaScript runtime value:
every object along the tree has pairwise-distinct keys (JavaScript objects
cannot hold duplicate keys). -/
def wfJ : JValue → Bool
  | .prim _ => true
  | .obj f => nodupKeys (jkeys f) && wfFields f
  | .arr l => wfList l
termination_by structural v => v

/-- Well-formedness of every value in an entry list. -/
def wfFields : JFields → Bool
  | .nil => true
  | .cons _ v rest => wfJ v && wfFields rest
termination_by structural f => f

/-- Well-formedness of every element of an array. -/
def wfList : JList → Bool
  | .nil => true
  | .cons v rest => wfJ v && wfList rest
termination_by structural l => l
end

mutual
/-- No key at any nesting depth of the value ends in `"Ar"`. -/
def noArJ : JValue → Bool
  | .prim _ => true
  | .obj f => noArFields f
  | .arr l => noArList l
termination_by structural v => v

/-- No key of the entry list or at any depth below it ends in `"Ar"`. -/
def noArFields : JFields → Bool
  | .nil => true
  | .cons k v rest => !(endsWithAr k) && noArJ v && noArFields rest
termination_by structural f => f

/-- No key at any depth of any element ends in `"Ar"`. -/
def noArList : JList → Bool
  | .nil => true
  | .cons v rest => noArJ v && noArList rest
termination_by structural l => l
end

mutual
theorem processObject_id (d : Bool) :
    ∀ (v : JValue), wfJ v = true → noArJ v = true → processObject d v = v
  | .prim p => fun _ _ => rfl
  | .arr items => fun hw hn => by
    have h := processList_id d items (by simpa [wfJ] using hw)
      (by simpa [noArJ] using hn)
    simp [processObject, h]
  | .obj f => fun hw hn => by
    have hw' : nodupKeys (jkeys f) = true ∧ wfFields f = true := by
      simpa [wfJ] using hw
    have hn' : noArFields f = true := by simpa [noArJ] using hn
    have h := processFields_id d f hw'.2 hn' hw'.1 .nil
      (fun _ _ hh => by simp [jkeys] at hh)
    simp [processObject, h, jappend]
termination_by structural v => v

theorem processList_id (d : Bool) :
    ∀ (l : JList), wfList l = true → noArList l = true → processList d l = l
  | .nil => fun _ _ => rfl
  | .cons v rest => fun hw hn => by
    have hw' : wfJ v = true ∧ wfList rest = true := by simpa [wfList] using hw
    have hn' : noArJ v = true ∧ noArList rest = true := by
      simpa [noArList] using hn
    have h1 := processObject_id d v hw'.1 hn'.1
    have h2 := processList_id d rest hw'.2 hn'.2
    simp [processList, h1, h2]
termination_by structural l => l

theorem processFields_id (d : Bool) :
    ∀ (f : JFields), wfFields f = true → noArFields f = true →
      nodupKeys (jkeys f) = true →
      ∀ acc, (∀ k, k ∈ jkeys f → k ∉ jkeys acc) →
      processFields d f acc = jappend acc f
  | .nil => fun _ _ _ acc _ => by simp [processFields, jappend_nil_right]
  | .cons k v rest => fun hw hn hnd acc hdisj => by
    have hw' : wfJ v = true ∧ wfFields rest = true := by
      simpa [wfFields] using hw
    have hn' : (endsWithAr k = false ∧ noArJ v = true) ∧ noArFields rest = true := by
      simpa [noArFields] using hn
    have hnd' : k ∉ jkeys rest ∧ nodupKeys (jkeys rest) = true :=
      nodupKeys_cons.mp (by simpa [jkeys] using hnd)
    have hv : processObject d v = v := processObject_id d v hw'.1 hn'.1.2
    have hkacc : k ∉ jkeys acc := hdisj k (by simp [jkeys])
    have hdisj' : ∀ k', k' ∈ jkeys rest →
        k' ∉ jkeys (jappend acc (.cons k v .nil)) := by
      intro k' hk' hmem
      rw [jkeys_jappend] at hmem
      rcases List.mem_append.mp hmem with h | h
      · exact hdisj k' (by simp [jkeys, hk']) h
      · have : k' = k := by simpa [jkeys] using h
        exact hnd'.1 (this ▸ hk')
    rw [processFields_cons_plain hn'.1.1 d, hv, insertJS_not_mem acc k v hkacc,
      processFields_id d rest hw'.2 hn'.2 hnd'.2 _ hdisj', jappend_assoc]
    rfl
termination_by structural f => f
end

/-- C8: on any well-formed JSON-like value none of whose keys at any
nesting depth ends in `"Ar"`, `formatResponse` is the identity in both
directions. -/
theorem c8_no_ar_noop (d : Bool) (v : JValue)
    (hw : wfJ v = true) (hn : noArJ v = true) : formatResponse d v = v := by
  unfold formatResponse
  split
  · rfl
  · exact processObject_id d v hw hn

/-- C8 witness: the object `{foo: 1, bar: [true, "s"]}` under both
directions. -/
theorem c8_no_ar_noop_witness :
    formatResponse true
        (.obj (.cons "foo" (.prim (.pnum 1))
          (.cons "bar" (.arr (.cons (.prim (.pbool true))
            (.cons (.prim (.pstr "s")) .nil))) .nil)))
      = .obj (.cons "foo" (.prim (.pnum 1))
          (.cons "bar" (.arr (.cons (.prim (.pbool true))
            (.cons (.prim (.pstr "s")) .nil))) .nil))
    ∧ formatResponse false
        (.obj (.cons "foo" (.prim (.pnum 1))
          (.cons "bar" (.arr (.cons (.prim (.pbool true))
            (.cons (.prim (.pstr "s")) .nil))) .nil))
      ) = .obj (.cons "foo" (.prim (.pnum 1))
          (.cons "bar" (.arr (.cons (.prim (.pbool true))
            (.cons (.prim (.pstr "s")) .nil))) .nil)) :=
  ⟨c8_no_ar_noop true _ (by decide) (by decide),
   c8_no_ar_noop false _ (by decide) (by decide)⟩

/-- JavaScript `s.toLowerCase()`: per-character simple lowercasing. -/
def lowerJS (s : String) : String := ⟨s.data.map Char.toLower⟩

/-- JavaScript `s.split(sep)[0]` for a single-character separator: the
characters before the first occurrence of `sep`. -/
def firstSeg (sep : Char) (s : String) : String := ⟨s.data.takeWhile (· ≠ sep)⟩

/-- The primary subtag of an `Accept-Language` header value:
`header.split(",")[0].split("-")[0]`. -/
def primarySubtag (header : String) : String := firstSeg '-' (firstSeg ',' header)

/-- JavaScript `a || b` on strings: the empty string is falsy. -/
def jsOrStr (a b : String) : String := if a = "" then b else a

/-- The fixed right-to-left language codes of `rtlSupport`. -/
def rtlLanguages : List String := ["ar", "he", "fa", "ur", "ku", "dv"]

/-- The locale fields `rtlSupport` attaches to the request. -/
structure ReqLoc where
  language : String
  isRTL : Bool
  direction : String
deriving DecidableEq, Repr

/-- The `rtlSupport` middleware from `src/backend/middleware/rtlSupport.js`:
`req.query.lang || req.headers["accept-language"]?.split(",")[0]?.split("-")[0] || "en"`,
then membership of the lower-cased language in `rtlLanguages` decides
`isRTL` and `direction`.  `none` models an absent query parameter or
header (JavaScript `undefined`, falsy like the empty string). -/
def rtlSupport (queryLang acceptLanguage : Option String) : ReqLoc :=
  let language := jsOrStr (queryLang.getD "")
    (jsOrStr ((acceptLanguage.map primarySubtag).getD "") "en")
  let isRTL := rtlLanguages.contains (lowerJS language)
  { language := language, isRTL := isRTL,
    direction := if isRTL then "rtl" else "ltr" }

/-- C7: language resolution as the code implements it: a non-empty `lang`
query parameter wins; otherwise a present header with non-empty primary
subtag wins; otherwise the fallback is `"en"`; and the direction is `rtl`
exactly when the lower-cased resolved language is in the fixed RTL set,
with `isRTL` agreeing with the direction. -/
theorem c7_language_resolution :
    (∀ (s : String) (a : Option String), s ≠ "" →
      (rtlSupport (some s) a).language = s)
    ∧ (∀ (q : Option String) (h : String), (q = none ∨ q = some "") →
        primarySubtag h ≠ "" →
        (rtlSupport q (some h)).language = primarySubtag h)
    ∧ (∀ (q : Option String), (q = none ∨ q = some "") →
        (rtlSupport q none).language = "en")
    ∧ (∀ (q : Option String) (h : String), (q = none ∨ q = some "") →
        primarySubtag h = "" →
        (rtlSupport q (some h)).language = "en")
    ∧ (∀ (q a : Option String),
        ((rtlSupport q a).direction = "rtl"
          ↔ rtlLanguages.contains (lowerJS (rtlSupport q a).language) = true)
        ∧ ((rtlSupport q a).isRTL = true ↔ (rtlSupport q a).direction = "rtl")) := by
  refine ⟨?_, ?_, ?_, ?_, ?_⟩
  · intro s a hs
    simp [rtlSupport, jsOrStr, hs]
  · rintro q h (rfl | rfl) hsub <;> simp [rtlSupport, jsOrStr, hsub]
  · rintro q (rfl | rfl) <;> simp [rtlSupport, jsOrStr]
  · rintro q h (rfl | rfl) hsub <;> simp [rtlSupport, jsOrStr, hsub]
  · intro q a
    unfold rtlSupport
    cases hc : rtlLanguages.contains (lowerJS (jsOrStr (q.getD "")
        (jsOrStr ((a.map primarySubtag).getD "") "en"))) <;>
      simp [hc] <;> simpa using hc

/-- C7 witness: concrete resolutions: `?lang=ar`; header `ar-SA,en`; both
absent; and the direction/isRTL agreement for `?lang=ar`. -/
theorem c7_language_resolution_witness :
    (rtlSupport (some "ar") none).language = "ar"
    ∧ (rtlSupport none (some "ar-SA,en")).language = primarySubtag "ar-SA,en"
    ∧ (rtlSupport none none).language = "en"
    ∧ ((rtlSupport (some "ar") none).isRTL = true
        ↔ (rtlSupport (some "ar") none).direction = "rtl") :=
  ⟨c7_language_resolution.1 "ar" none (by decide),
   c7_language_resolution.2.1 none "ar-SA,en" (Or.inl rfl) (by decide),
   c7_language_resolution.2.2.1 none (Or.inl rfl),
   (c7_language_resolution.2.2.2.2 (some "ar") none).2⟩

/-- C7 counterexample: a present but empty `lang` query parameter is falsy
in JavaScript, so the code falls through to the fallback `"en"` instead of
resolving to the parameter's value `""` as the claim requires. -/
theorem c7_cex :
    (rtlSupport (some "") none).language = "en" ∧ ("en" : String) ≠ "" := by
  constructor
  · decide
  · decide

/-- Truthiness of a JavaScript property read (`undefined` is falsy). -/
def truthyOpt : Option JValue → Bool
  | none => false
  | some v => !(isFalsy v)

/-- JavaScript `typeof data === "object"`: true for objects, arrays and
`null`. -/
def jsTypeofObject : JValue → Bool
  | .obj _ => true
  | .arr _ => true
  | .prim .pnull => true
  | _ => false

/-- The `language` metadata block `{code, direction, isRTL}` attached by
`formatResponseMiddleware`. -/
def langBlock (r : ReqLoc) : JValue :=
  .obj (.cons "code" (.prim (.pstr r.language))
    (.cons "direction" (.prim (.pstr r.direction))
      (.cons "isRTL" (.prim (.pbool r.isRTL)) .nil)))

/-- JavaScript property assignment on a JSON-like value (no-op on
non-objects; the hook only assigns after checking the object shape). -/
def setProp : JValue → String → JValue → JValue
  | .obj f, k, v => .obj (insertJS f k v)
  | other, _, _ => other

/-- The overridden `res.json` from `formatResponseMiddleware` in
`src/backend/middleware/rtlSupport.js`: truthy object-typed payloads are
formatted; when the FORMATTED payload has `status === "success"` and a
truthy `data` property, a `language` block is attached; everything else
passes through. -/
def formatResponseJson (r : ReqLoc) (data : JValue) : JValue :=
  if !(isFalsy data) && jsTypeofObject data then
    let formattedData := formatResponse r.isRTL data
    if (jsGet formattedData "status" == some (.prim (.pstr "success")))
        && truthyOpt (jsGet formattedData "data") then
      setProp formattedData "language" (langBlock r)
    else formattedData
  else data

/-- C4: the `language` block is attached exactly when the FORMATTED
payload has `status = "success"` and a truthy `data` property (not when
the input payload has that shape); when attached, the block is
`{code, direction, isRTL}` from the resolved locale and `isRTL` agrees
with the direction; otherwise the hook returns the formatted payload
unchanged, and non-object or falsy payloads pass through untouched. -/
theorem c4_language_block (q a : Option String) (data : JValue) :
    ((isFalsy data = false ∧ jsTypeofObject data = true) →
      ((jsGet (formatResponse (rtlSupport q a).isRTL data) "status"
            = some (.prim (.pstr "success"))
          ∧ truthyOpt (jsGet (formatResponse (rtlSupport q a).isRTL data) "data")
            = true) →
        formatResponseJson (rtlSupport q a) data
            = setProp (formatResponse (rtlSupport q a).isRTL data) "language"
                (langBlock (rtlSupport q a))
          ∧ jsGet (formatResponseJson (rtlSupport q a) data) "language"
              = some (langBlock (rtlSupport q a))
          ∧ ((rtlSupport q a).isRTL = true ↔ (rtlSupport q a).direction = "rtl"))
      ∧ (¬ (jsGet (formatResponse (rtlSupport q a).isRTL data) "status"
            = some (.prim (.pstr "success"))
          ∧ truthyOpt (jsGet (formatResponse (rtlSupport q a).isRTL data) "data")
            = true) →
        formatResponseJson (rtlSupport q a) data
          = formatResponse (rtlSupport q a).isRTL data))
    ∧ ((isFalsy data = true ∨ jsTypeofObject data = false) →
        formatResponseJson (rtlSupport q a) data = data) := by
  constructor
  · intro hA
    have hcondA : (!(isFalsy data) && jsTypeofObject data) = true := by
      simp [hA.1, hA.2]
    constructor
    · intro hB
      have hcondB : ((jsGet (formatResponse (rtlSupport q a).isRTL data) "status"
            == some (.prim (.pstr "success")))
          && truthyOpt (jsGet (formatResponse (rtlSupport q a).isRTL data) "data"))
            = true := by
        simp only [Bool.and_eq_true, beq_iff_eq]
        exact ⟨hB.1, hB.2⟩
      have heq : formatResponseJson (rtlSupport q a) data
          = setProp (formatResponse (rtlSupport q a).isRTL data) "language"
              (langBlock (rtlSupport q a)) := by
        unfold formatResponseJson
        rw [if_pos hcondA, if_pos hcondB]
      refine ⟨heq, ?_, ?_⟩
      · rw [heq]
        rcases hfd : formatResponse (rtlSupport q a).isRTL data with p | f | l
        · rw [hfd] at hB
          exact absurd hB.1 (by simp [jsGet])
        · simp [setProp, jsGet, jlookup_insertJS_self]
        · rw [hfd] at hB
          exact absurd hB.1 (by simp [jsGet])
      · unfold rtlSupport
        cases hc : rtlLanguages.contains (lowerJS (jsOrStr (q.getD "")
            (jsOrStr ((a.map primarySubtag).getD "") "en"))) <;> simp [hc]
    · intro hB
      have hcondB : ((jsGet (formatResponse (rtlSupport q a).isRTL data) "status"
            == some (.prim (.pstr "success")))
          && truthyOpt (jsGet (formatResponse (rtlSupport q a).isRTL data) "data"))
            = false := by
        rw [show (((jsGet (formatResponse (rtlSupport q a).isRTL data) "status"
            == some (.prim (.pstr "success")))
          && truthyOpt (jsGet (formatResponse (rtlSupport q a).isRTL data) "data"))
            = false)
          ↔ ¬ (((jsGet (formatResponse (rtlSupport q a).isRTL data) "status"
            == some (.prim (.pstr "success")))
          && truthyOpt (jsGet (formatResponse (rtlSupport q a).isRTL data) "data"))
            = true) from by simp]
        intro hh
        apply hB
        simpa [Bool.and_eq_true, beq_iff_eq] using hh
      unfold formatResponseJson
      rw [if_pos hcondA, if_neg (by simp [hcondB])]
  · intro hA
    have hcondA : (!(isFalsy data) && jsTypeofObject data) = false := by
      rcases hA with h | h <;> simp [h]
    unfold formatResponseJson
    rw [if_neg (by simp [hcondA])]

/-- C4 witness: `?lang=ar` with payload `{status: "success", data: {}}`:
the hook attaches the language block and `isRTL` agrees with the
direction. -/
theorem c4_language_block_witness :
    jsGet (formatResponseJson (rtlSupport (some "ar") none)
        (.obj (.cons "status" (.prim (.pstr "success"))
          (.cons "data" (.obj .nil) .nil)))) "language"
      = some (langBlock (rtlSupport (some "ar") none))
    ∧ ((rtlSupport (some "ar") none).isRTL = true
        ↔ (rtlSupport (some "ar") none).direction = "rtl") :=
  have h := ((c4_language_block (some "ar") none
      (.obj (.cons "status" (.prim (.pstr "success"))
        (.cons "data" (.obj .nil) .nil)))).1 (by decide)).1 (by decide)
  ⟨h.2.1, h.2.2⟩

/-- C4 counterexample: the payload `{status: "success", statusAr: "x",
data: {}}` has the claimed top-level success shape, but under `rtl` the
formatter overwrites `status` with `"x"` before the check, so no
`language` block is attached. -/
theorem c4_cex :
    jsGet (.obj (.cons "status" (.prim (.pstr "success"))
        (.cons "statusAr" (.prim (.pstr "x"))
          (.cons "data" (.obj .nil) .nil)))) "status"
      = some (.prim (.pstr "success"))
    ∧ jsGet (.obj (.cons "status" (.prim (.pstr "success"))
        (.cons "statusAr" (.prim (.pstr "x"))
          (.cons "data" (.obj .nil) .nil)))) "data"
      = some (.obj .nil)
    ∧ (rtlSupport (some "ar") none).direction = "rtl"
    ∧ jsGet (formatResponseJson (rtlSupport (some "ar") none)
        (.obj (.cons "status" (.prim (.pstr "success"))
          (.cons "statusAr" (.prim (.pstr "x"))
            (.cons "data" (.obj .nil) .nil))))) "language"
      = none := by
  refine ⟨?_, ?_, ?_, ?_⟩ <;> decide

/-- JavaScript falsiness of a primitive. -/
def isFalsyPrim : Prim → Bool
  | .pnull => true
  | .pbool b => !b
  | .pnum n => n == 0
  | .pstr s => s == ""

/-- A field or array slot of a heap value: an inline primitive or a
reference to a heap node.  Reference identity is what the `seen` WeakSet
of `formatResponse` tracks, so cyclic payloads need this heap view. -/
inductive HRef where
  | hprim : Prim → HRef
  | href : Nat → HRef
deriving DecidableEq, Repr

/-- A composite heap node: an object or an array. -/
inductive HNode where
  | hobj : List (String × HRef) → HNode
  | harr : List HRef → HNode
deriving DecidableEq, Repr

/-- Output values of the heap-level formatter.  `oref` is a reference
copied verbatim by the `rtl` branch (`processed[baseKey] = value` does not
recurse); `oprim .pnull` doubles as the cycle-guard placeholder, as in the
code. -/
inductive OVal where
  | oprim : Prim → OVal
  | oref : Nat → OVal
  | oobj : List (String × OVal) → OVal
  | oarr : List OVal → OVal

/-- JavaScript property assignment on the output accumulator. -/
def insertJSO : List (String × OVal) → String → OVal → List (String × OVal)
  | [], k, v => [(k, v)]
  | (k', v') :: rest, k, v =>
    if k' = k then (k', v) :: rest else (k', v') :: insertJSO rest k v

/-- The value copied verbatim by the `rtl` `Ar` branch. -/
def refOut : HRef → OVal
  | .hprim p => .oprim p
  | .href a => .oref a

mutual
/-- Fuel-indexed heap-level `processObject`: `vis` is the `seen` WeakSet
(added to before descending, never removed, threaded through the whole
traversal); a revisited reference yields the `null` placeholder without
descending.  `none` means the fuel ran out — `processAdequacy` shows
enough fuel always exists.  A dangling reference (impossible for a
JavaScript value) is mapped to the placeholder. -/
def processRefH (d : Bool) (h : List HNode) :
    Nat → List Nat → HRef → Option (OVal × List Nat)
  | 0, _, _ => none
  | _ + 1, vis, .hprim p => some (.oprim p, vis)
  | fuel + 1, vis, .href a =>
    if a ∈ vis then some (.oprim .pnull, vis)
    else
      match h.get? a with
      | none => some (.oprim .pnull, a :: vis)
      | some (.hobj fields) =>
        match processFieldsRefH d h fuel (a :: vis) fields [] with
        | none => none
        | some (out, vis') => some (.oobj out, vis')
      | some (.harr items) =>
        match processListRefH d h fuel (a :: vis) items with
        | none => none
        | some (out, vis') => some (.oarr out, vis')
termination_by structural fuel _ _ => fuel

/-- Heap-level array traversal, threading the visited set left to right. -/
def processListRefH (d : Bool) (h : List HNode) :
    Nat → List Nat → List HRef → Option (List OVal × List Nat)
  | 0, _, _ => none
  | _ + 1, vis, [] => some ([], vis)
  | fuel + 1, vis, x :: rest =>
    match processRefH d h fuel vis x with
    | none => none
    | some (o, vis') =>
      match processListRefH d h fuel vis' rest with
      | none => none
      | some (os, vis'') => some (o :: os, vis'')
termination_by structural fuel _ _ => fuel

/-- Heap-level entry loop of `processObject`, with the `Ar` collapse rule
(raw, non-recursive copy under `rtl`). -/
def processFieldsRefH (d : Bool) (h : List HNode) :
    Nat → List Nat → List (String × HRef) → List (String × OVal) →
      Option (List (String × OVal) × List Nat)
  | 0, _, _, _ => none
  | _ + 1, vis, [], acc => some (acc, vis)
  | fuel + 1, vis, (k, x) :: rest, acc =>
    if endsWithAr k then
      if d then
        processFieldsRefH d h fuel vis rest (insertJSO acc (sliceDropTwo k) (refOut x))
      else
        processFieldsRefH d h fuel vis rest acc
    else
      match processRefH d h fuel vis x with
      | none => none
      | some (o, vis') => processFieldsRefH d h fuel vis' rest (insertJSO acc k o)
termination_by structural fuel _ _ _ => fuel
end

/-- Fuel needed for one heap node: one step to enter it plus one per
entry. -/
def nodeFuel : HNode → Nat
  | .hobj fields => fields.length + 1
  | .harr items => items.length + 1

/-- Sum of `nodeFuel` over the not-yet-visited addresses in `addrs`. -/
def sumFuel (h : List HNode) (vis : List Nat) : List Nat → Nat
  | [] => 0
  | a :: rest =>
    (if a ∈ vis then 0 else nodeFuel (h.getD a (.harr []))) + sumFuel h vis rest

/-- Total fuel potential of the unvisited part of the heap. -/
def heapFuel (h : List HNode) (vis : List Nat) : Nat :=
  sumFuel h vis (List.range h.length)

theorem sumFuel_mono (h : List HNode) (vis vis' : List Nat)
    (hsub : ∀ b, b ∈ vis → b ∈ vis') :
    ∀ addrs, sumFuel h vis' addrs ≤ sumFuel h vis addrs := by
  intro addrs
  induction addrs with
  | nil => exact Nat.le_refl 0
  | cons a rest ih =>
    apply Nat.add_le_add _ ih
    by_cases ha : a ∈ vis
    · simp [ha, hsub a ha]
    · by_cases ha' : a ∈ vis' <;> simp [ha, ha']

theorem heapFuel_mono (h : List HNode) (vis vis' : List Nat)
    (hsub : ∀ b, b ∈ vis → b ∈ vis') :
    heapFuel h vis' ≤ heapFuel h vis :=
  sumFuel_mono h vis vis' hsub _

theorem sumFuel_congr (h : List HNode) (vis vis' : List Nat) :
    ∀ addrs, (∀ b, b ∈ addrs → (b ∈ vis ↔ b ∈ vis')) →
      sumFuel h vis addrs = sumFuel h vis' addrs := by
  intro addrs
  induction addrs with
  | nil => intro _; rfl
  | cons a rest ih =>
    intro hcong
    have ha := hcong a (by simp)
    have hrest := ih fun b hb => hcong b (by simp [hb])
    by_cases hav : a ∈ vis
    · simp [sumFuel, hav, ha.mp hav, hrest]
    · have hav' : a ∉ vis' := fun hh => hav (ha.mpr hh)
      simp [sumFuel, hav, hav', hrest]

theorem sumFuel_visit (h : List HNode) (vis : List Nat) (a : Nat)
    (hav : a ∉ vis) :
    ∀ addrs, a ∈ addrs → addrs.Nodup →
      sumFuel h vis addrs
        = nodeFuel (h.getD a (.harr [])) + sumFuel h (a :: vis) addrs := by
  intro addrs
  induction addrs with
  | nil => intro hmem; exact absurd hmem (by simp)
  | cons b rest ih =>
    intro hmem hnodup
    rcases List.mem_cons.mp hmem with heq | hmem'
    · subst heq
      have hbrest : a ∉ rest := (List.nodup_cons.mp hnodup).1
      have hrest : sumFuel h vis rest = sumFuel h (a :: vis) rest := by
        apply sumFuel_congr
        intro c hc
        have hcb : c ≠ a := fun hh => hbrest (hh ▸ hc)
        simp [hcb]
      simp [sumFuel, hav, hrest, Nat.add_comm, Nat.add_assoc, Nat.add_left_comm]
    · have hba : b ≠ a := by
        rintro rfl
        exact (List.nodup_cons.mp hnodup).1 hmem'
      have hrest := ih hmem' (List.nodup_cons.mp hnodup).2
      have hhead : (if b ∈ vis then 0 else nodeFuel (h.getD b (.harr [])))
          = (if b ∈ a :: vis then 0 else nodeFuel (h.getD b (.harr []))) := by
        simp [hba]
      simp only [sumFuel, hrest, hhead]
      omega

theorem heapFuel_visit (h : List HNode) (vis : List Nat) (a : Nat)
    (node : HNode) (hget : h.get? a = some node) (hav : a ∉ vis) :
    heapFuel h vis = nodeFuel node + heapFuel h (a :: vis) := by
  have hlt : a < h.length := by
    by_contra hge
    rw [List.get?_eq_none.mpr (Nat.le_of_not_lt hge)] at hget
    cases hget
  have hgetD : h.getD a (.harr []) = node := by
    rw [List.getD_eq_getD_get?, hget]
    rfl
  have := sumFuel_visit h vis a hav (List.range h.length)
    (List.mem_range.mpr hlt) (List.nodup_range _)
  rw [heapFuel, this, hgetD]
  rfl

/-- Enough fuel always exists: with fuel exceeding the potential of the
unvisited heap (plus the pending entries for the loop forms), every form
of the traversal returns a result, the visited set only grows, and the
potential does not increase. -/
theorem processAdequacy (d : Bool) (h : List HNode) :
    ∀ fuel : Nat,
      (∀ (vis : List Nat) (x : HRef), heapFuel h vis < fuel →
        ∃ o vis', processRefH d h fuel vis x = some (o, vis')
          ∧ (∀ b, b ∈ vis → b ∈ vis') ∧ heapFuel h vis' ≤ heapFuel h vis)
      ∧ (∀ (vis : List Nat) (items : List HRef),
          heapFuel h vis + items.length < fuel →
        ∃ os vis', processListRefH d h fuel vis items = some (os, vis')
          ∧ (∀ b, b ∈ vis → b ∈ vis') ∧ heapFuel h vis' ≤ heapFuel h vis)
      ∧ (∀ (vis : List Nat) (entries : List (String × HRef))
            (acc : List (String × OVal)),
          heapFuel h vis + entries.length < fuel →
        ∃ out vis', processFieldsRefH d h fuel vis entries acc = some (out, vis')
          ∧ (∀ b, b ∈ vis → b ∈ vis') ∧ heapFuel h vis' ≤ heapFuel h vis) := by
  intro fuel
  induction fuel with
  | zero =>
    refine ⟨?_, ?_, ?_⟩
    · intro vis x hlt; exact absurd hlt (by omega)
    · intro vis items hlt; exact absurd hlt (by omega)
    · intro vis entries acc hlt; exact absurd hlt (by omega)
  | succ n ih =>
    obtain ⟨ihR, ihL, ihF⟩ := ih
    refine ⟨?_, ?_, ?_⟩
    · intro vis x hlt
      cases x with
      | hprim p => exact ⟨.oprim p, vis, rfl, fun _ hb => hb, Nat.le_refl _⟩
      | href a =>
        by_cases hvis : a ∈ vis
        · exact ⟨.oprim .pnull, vis, by simp [processRefH, hvis],
            fun _ hb => hb, Nat.le_refl _⟩
        · cases hget : h.get? a with
          | none =>
            have hget2 : h[a]? = none := by
              rw [← List.get?_eq_getElem?]; exact hget
            refine ⟨.oprim .pnull, a :: vis, ?_, fun b hb => by simp [hb], ?_⟩
            · simp [processRefH, hvis, hget2]
            · exact heapFuel_mono h vis (a :: vis) (fun b hb => by simp [hb])
          | some node =>
            have hsplit := heapFuel_visit h vis a node hget hvis
            have hget2 : h[a]? = some node := by
              rw [← List.get?_eq_getElem?]; exact hget
            cases node with
            | hobj fields =>
              have hflt : heapFuel h (a :: vis) + fields.length < n := by
                rw [hsplit] at hlt
                simp [nodeFuel] at hlt
                omega
              obtain ⟨out, vis', heq, hsub, hle⟩ := ihF (a :: vis) fields [] hflt
              refine ⟨.oobj out, vis', ?_, ?_, ?_⟩
              · simp [processRefH, hvis, hget2, heq]
              · intro b hb; exact hsub b (by simp [hb])
              · calc heapFuel h vis' ≤ heapFuel h (a :: vis) := hle
                  _ ≤ heapFuel h vis := by rw [hsplit]; omega
            | harr items =>
              have hflt : heapFuel h (a :: vis) + items.length < n := by
                rw [hsplit] at hlt
                simp [nodeFuel] at hlt
                omega
              obtain ⟨os, vis', heq, hsub, hle⟩ := ihL (a :: vis) items hflt
              refine ⟨.oarr os, vis', ?_, ?_, ?_⟩
              · simp [processRefH, hvis, hget2, heq]
              · intro b hb; exact hsub b (by simp [hb])
              · calc heapFuel h vis' ≤ heapFuel h (a :: vis) := hle
                  _ ≤ heapFuel h vis := by rw [hsplit]; omega
    · intro vis items hlt
      cases items with
      | nil => exact ⟨[], vis, rfl, fun _ hb => hb, Nat.le_refl _⟩
      | cons x rest =>
        have hxlt : heapFuel h vis < n := by simp at hlt; omega
        obtain ⟨o, vis₁, heq₁, hsub₁, hle₁⟩ := ihR vis x hxlt
        have hrlt : heapFuel h vis₁ + rest.length < n := by
          simp at hlt; omega
        obtain ⟨os, vis₂, heq₂, hsub₂, hle₂⟩ := ihL vis₁ rest hrlt
        refine ⟨o :: os, vis₂, ?_, ?_, Nat.le_trans hle₂ hle₁⟩
        · simp [processListRefH, heq₁, heq₂]
        · intro b hb; exact hsub₂ b (hsub₁ b hb)
    · intro vis entries acc hlt
      cases entries with
      | nil => exact ⟨acc, vis, rfl, fun _ hb => hb, Nat.le_refl _⟩
      | cons e rest =>
        obtain ⟨k, x⟩ := e
        by_cases hAr : endsWithAr k
        · cases d with
          | true =>
            have hrlt : heapFuel h vis + rest.length < n := by simp at hlt; omega
            obtain ⟨out, vis', heq, hsub, hle⟩ :=
              ihF vis rest (insertJSO acc (sliceDropTwo k) (refOut x)) hrlt
            exact ⟨out, vis', by simp [processFieldsRefH, hAr, heq], hsub, hle⟩
          | false =>
            have hrlt : heapFuel h vis + rest.length < n := by simp at hlt; omega
            obtain ⟨out, vis', heq, hsub, hle⟩ := ihF vis rest acc hrlt
            exact ⟨out, vis', by simp [processFieldsRefH, hAr, heq], hsub, hle⟩
        · have hxlt : heapFuel h vis < n := by simp at hlt; omega
          obtain ⟨o, vis₁, heq₁, hsub₁, hle₁⟩ := ihR vis x hxlt
          have hrlt : heapFuel h vis₁ + rest.length < n := by
            simp at hlt; omega
          obtain ⟨out, vis₂, heq₂, hsub₂, hle₂⟩ :=
            ihF vis₁ rest (insertJSO acc k o) hrlt
          refine ⟨out, vis₂, ?_, ?_, Nat.le_trans hle₂ hle₁⟩
          · simp [processFieldsRefH, hAr, heq₁, heq₂]
          · intro b hb; exact hsub₂ b (hsub₁ b hb)

/-- JavaScript falsiness of a field value (`!data`). -/
def isFalsyRef : HRef → Bool
  | .hprim p => isFalsyPrim p
  | .href _ => false

/-- Heap-level `formatResponse(data, req)`: falsy data is returned as-is,
otherwise the payload is traversed starting from an empty `seen` set. -/
def formatResponseH (d : Bool) (h : List HNode) (fuel : Nat) (data : HRef) :
    Option OVal :=
  if isFalsyRef data then some (refOut data)
  else
    match processRefH d h fuel [] data with
    | none => none
    | some (o, _) => some o

/-- C3: on every heap — cyclic ones included — `formatResponse` terminates
with a result (any fuel above the heap potential suffices, so the
recursion cannot run forever), and revisiting an already-visited composite
value returns the `null` placeholder instead of descending. -/
theorem c3_cycle_termination (d : Bool) (h : List HNode) (data : HRef)
    (fuel : Nat) (hfuel : heapFuel h [] < fuel) :
    (formatResponseH d h fuel data).isSome = true
    ∧ (∀ (a : Nat) (vis : List Nat) (n : Nat), a ∈ vis →
        processRefH d h (n + 1) vis (.href a) = some (.oprim .pnull, vis)) := by
  constructor
  · unfold formatResponseH
    split
    · rfl
    · obtain ⟨o, vis', heq, -, -⟩ := (processAdequacy d h fuel).1 [] data hfuel
      rw [heq]
      rfl
  · intro a vis n ha
    simp [processRefH, ha]

/-- C3 witness: the one-node cyclic heap `{self: <itself>}` with fuel 3:
formatting terminates, and re-entering node 0 with node 0 already seen
yields the placeholder. -/
theorem c3_cycle_termination_witness :
    (formatResponseH true [HNode.hobj [("self", HRef.href 0)]] 3 (.href 0)).isSome
      = true
    ∧ processRefH true [HNode.hobj [("self", HRef.href 0)]] 1 [0] (.href 0)
      = some (.oprim .pnull, [0]) :=
  have h := c3_cycle_termination true [HNode.hobj [("self", HRef.href 0)]]
    (.href 0) 3 (by decide)
  ⟨h.1, h.2 0 [0] 0 (by decide)⟩

/-- The `isIn` list of the booking status validator on
`PUT /bookings/:id/status` (identical in `src/backend/routes/admin.js` and
`src/unnamed/part_000`). -/
def bookingStatusValues : List String :=
  ["pending", "confirmed", "in-progress", "completed", "cancelled"]

/-- A stored booking, reduced to the fields the status route touches. -/
structure BookingRec where
  bid : Nat
  status : String
deriving DecidableEq, Repr

/-- Modelled from the spec: the Booking model
(`src/backend/models/Booking.js`, not under `src/`) enum-validates
`status` on `save()` — the spec's data-model section states booking status
membership in the fixed set is "delegated to the storage layer's schema
validation".  A failing save leaves the stored collection unchanged. -/
def bookingSave (db : List BookingRec) (b : BookingRec) :
    Except String (List BookingRec) :=
  if bookingStatusValues.contains b.status then
    .ok (db.map fun x => if x.bid == b.bid then b else x)
  else
    .error "Booking validation failed"

/-- `Booking.findById` over the stored collection. -/
def findBooking (db : List BookingRec) (i : Nat) : Option BookingRec :=
  db.find? fun b => b.bid == i

/-- Outcome of the status-update request. -/
inductive UpdateOutcome where
  | success : BookingRec → UpdateOutcome
  | notFoundErr : String → UpdateOutcome
  | validationErr : String → UpdateOutcome
deriving DecidableEq, Repr

/-- The `PUT /bookings/:id/status` handler: look the booking up (404 when
absent), set its status from the request body and `save()`; the handler
itself never checks `validationResult`, so rejection of a bad status value
happens at the save's schema validation, which leaves the store
untouched. -/
def updateBookingStatus (db : List BookingRec) (i : Nat) (s : String) :
    UpdateOutcome × List BookingRec :=
  match findBooking db i with
  | none => (.notFoundErr "Booking not found", db)
  | some b =>
    let b' : BookingRec := { b with status := s }
    match bookingSave db b' with
    | .ok db' => (.success b', db')
    | .error m => (.validationErr m, db)

/-- C5: every status value outside the fixed enumerated set is rejected:
the stored collection is unchanged, the request never succeeds, and when
the booking exists the failure is a validation error. -/
theorem c5_booking_status_rejected (db : List BookingRec) (i : Nat)
    (s : String) (hs : bookingStatusValues.contains s = false) :
    (updateBookingStatus db i s).2 = db
    ∧ (∀ b, (updateBookingStatus db i s).1 ≠ UpdateOutcome.success b)
    ∧ (∀ b, findBooking db i = some b →
        (updateBookingStatus db i s).1
          = .validationErr "Booking validation failed") := by
  have hrej : ∀ b : BookingRec,
      bookingSave db { b with status := s }
        = .error "Booking validation failed" := by
    intro b
    unfold bookingSave
    rw [if_neg (by simpa using hs)]
  cases hfind : findBooking db i with
  | none =>
    refine ⟨?_, ?_, ?_⟩
    · simp [updateBookingStatus, hfind]
    · intro b
      simp [updateBookingStatus, hfind]
    · intro b hb
      exact Option.noConfusion hb
  | some b =>
    refine ⟨?_, ?_, ?_⟩
    · simp [updateBookingStatus, hfind, hrej]
    · intro b'
      simp [updateBookingStatus, hfind, hrej]
    · intro b' _
      simp [updateBookingStatus, hfind, hrej]

/-- C5 witness: the store `[{id: 1, status: "pending"}]` and the
out-of-set value `"bogus"`. -/
theorem c5_booking_status_rejected_witness :
    (updateBookingStatus [⟨1, "pending"⟩] 1 "bogus").2 = [⟨1, "pending"⟩]
    ∧ (updateBookingStatus [⟨1, "pending"⟩] 1 "bogus").1
        = .validationErr "Booking validation failed" :=
  have h := c5_booking_status_rejected [⟨1, "pending"⟩] 1 "bogus" (by decide)
  ⟨h.1, h.2.2 ⟨1, "pending"⟩ (by decide)⟩

/-- A persisted record, reduced to the fields the dashboard queries
filter on. -/
structure DocRec where
  status : String
  createdAt : Nat
  actualCost : Int
deriving DecidableEq, Repr

/-- The five collections the dashboard queries. -/
structure DBState where
  users : List DocRec
  services : List DocRec
  blogs : List DocRec
  contacts : List DocRec
  bookings : List DocRec

/-- The query filters used by the dashboard: optional `status` equality
and optional `createdAt: {$gte: t}`. -/
structure CountFilter where
  statusEq : Option String
  createdAtGte : Option Nat

/-- Whether a record matches a filter. -/
def matchesFilter (f : CountFilter) (doc : DocRec) : Bool :=
  (match f.statusEq with
   | none => true
   | some s => doc.status == s)
  && (match f.createdAtGte with
      | none => true
      | some t => t ≤ doc.createdAt)

/-- `Model.countDocuments(filter)`. -/
def countDocuments (docs : List DocRec) (f : CountFilter) : Nat :=
  (docs.filter (fun doc => matchesFilter f doc)).length

/-- The empty filter `{}`. -/
def noFilter : CountFilter := ⟨none, none⟩

/-- The numeric statistics assembled by `GET /dashboard`. -/
structure DashboardStats where
  totalUsers : Nat
  totalServices : Nat
  totalBlogs : Nat
  totalContacts : Nat
  newContacts : Nat
  totalBookings : Nat
  pendingBookings : Nat
  monthlyBookings : Nat
  monthlyContacts : Nat
  monthlyRevenue : Int

/-- The `GET /dashboard` handler of `src/backend/routes/admin.js`: the
parallel `countDocuments` fan-out plus the separately awaited monthly
contacts count; the revenue aggregate sums `actualCost` over completed
bookings of the month (the empty aggregate yields 0, matching the
`length > 0 ? total : 0` guard). -/
def dashboardStats (db : DBState) (startOfMonth : Nat) : DashboardStats :=
  { totalUsers := countDocuments db.users noFilter
    totalServices := countDocuments db.services noFilter
    totalBlogs := countDocuments db.blogs noFilter
    totalContacts := countDocuments db.contacts noFilter
    newContacts := countDocuments db.contacts ⟨some "new", none⟩
    totalBookings := countDocuments db.bookings noFilter
    pendingBookings := countDocuments db.bookings ⟨some "pending", none⟩
    monthlyBookings := countDocuments db.bookings ⟨none, some startOfMonth⟩
    monthlyContacts := countDocuments db.contacts ⟨none, some startOfMonth⟩
    monthlyRevenue :=
      ((db.bookings.filter
        (fun doc => matchesFilter ⟨some "completed", some startOfMonth⟩ doc)).map
          (fun b => b.actualCost)).sum }

/-- C6: every dashboard count equals the number of records matching its
stated filter: status filters, month filters, and the plain collection
sizes. -/
theorem c6_dashboard_counts (db : DBState) (startOfMonth : Nat) :
    (dashboardStats db startOfMonth).pendingBookings
        = (db.bookings.filter (fun b => b.status == "pending")).length
    ∧ (dashboardStats db startOfMonth).newContacts
        = (db.contacts.filter (fun c => c.status == "new")).length
    ∧ (dashboardStats db startOfMonth).monthlyBookings
        = (db.bookings.filter (fun b => startOfMonth ≤ b.createdAt)).length
    ∧ (dashboardStats db startOfMonth).monthlyContacts
        = (db.contacts.filter (fun c => startOfMonth ≤ c.createdAt)).length
    ∧ (dashboardStats db startOfMonth).totalUsers = db.users.length
    ∧ (dashboardStats db startOfMonth).totalServices = db.services.length
    ∧ (dashboardStats db startOfMonth).totalBlogs = db.blogs.length
    ∧ (dashboardStats db startOfMonth).totalContacts = db.contacts.length
    ∧ (dashboardStats db startOfMonth).totalBookings = db.bookings.length := by
  refine ⟨?_, ?_, ?_, ?_, ?_, ?_, ?_, ?_, ?_⟩ <;>
    simp [dashboardStats, countDocuments, matchesFilter, noFilter,
      Bool.and_true, Bool.true_and, List.filter_true]

/-- The `isIn` list of the contact status validator on
`PUT /contacts/:id/status` in `src/backend/routes/admin.js`. -/
def contactStatusValuesAdminJs : List String :=
  ["new", "read", "replied", "closed"]

/-- The `isIn` list of the contact status validator on
`PUT /contacts/:id/status` in `src/unnamed/part_000`. -/
def contactStatusValuesPart000 : List String :=
  ["new", "in-progress", "resolved", "closed"]

/-- The status buttons the `ContactModal` component
(`src/unnamed/part_002`) can submit. -/
def contactModalStatuses : List String :=
  ["new", "in-progress", "resolved", "closed"]

/-- The `admin.js` contact-status validator's acceptance predicate. -/
def acceptsContactStatusAdminJs (s : String) : Bool :=
  contactStatusValuesAdminJs.contains s

/-- The `part_000` contact-status validator's acceptance predicate. -/
def acceptsContactStatusPart000 (s : String) : Bool :=
  contactStatusValuesPart000.contains s

/-- C10: the `part_000` validator accepts exactly the modal's status set,
but the `admin.js` validator differs from both: it accepts `"read"` and
`"replied"` (which neither the other copy nor the modal uses) and rejects
the modal's `"in-progress"` and `"resolved"`. -/
theorem c10_validator_sets :
    (∀ s, acceptsContactStatusPart000 s = contactModalStatuses.contains s)
    ∧ (acceptsContactStatusAdminJs "read" = true
        ∧ acceptsContactStatusPart000 "read" = false
        ∧ contactModalStatuses.contains "read" = false)
    ∧ (acceptsContactStatusAdminJs "in-progress" = false
        ∧ acceptsContactStatusPart000 "in-progress" = true
        ∧ contactModalStatuses.contains "in-progress" = true) := by
  refine ⟨fun s => rfl, ⟨?_, ?_, ?_⟩, ⟨?_, ?_, ?_⟩⟩ <;> decide

/-- C10 counterexample: at `s = "read"` the `admin.js` validator accepts
while the `part_000` validator rejects and the modal has no such button,
refuting both asserted equivalences. -/
theorem c10_cex :
    acceptsContactStatusAdminJs "read" = true
    ∧ acceptsContactStatusPart000 "read" = false
    ∧ contactModalStatuses.contains "read" = false := by
  refine ⟨?_, ?_, ?_⟩ <;> decide

/-- Array indexing `items[i]`. -/
def jnthList : JList → Nat → Option JValue
  | .nil, _ => none
  | .cons v _, 0 => some v
  | .cons _ rest, n + 1 => jnthList rest n

theorem jnthList_processList (d : Bool) :
    ∀ (items : JList) (i : Nat),
      jnthList (processList d items) i
        = (jnthList items i).map (processObject d) := by
  intro items
  induction items using jlistSpineInduction with
  | hnil => intro i; cases i <;> rfl
  | hcons v rest ih =>
    intro i
    cases i with
    | zero => rfl
    | succ n => simpa [processList, jnthList] using ih n

theorem nodupKeys_append_right :
    ∀ (l₁ l₂ : List String), nodupKeys (l₁ ++ l₂) = true →
      nodupKeys l₂ = true := by
  intro l₁ l₂
  induction l₁ with
  | nil => exact id
  | cons k rest ih =>
    intro h
    exact ih (nodupKeys_cons.mp h).2

theorem wfFields_jlookup :
    ∀ (f : JFields) (k : String) (v : JValue),
      wfFields f = true → jlookup f k = some v → wfJ v = true := by
  intro f
  induction f using jfieldsSpineInduction with
  | hnil => intro k v _ hlook; exact absurd hlook (by simp [jlookup])
  | hcons k' v' rest ih =>
    intro k v hwf hlook
    have hwf' : wfJ v' = true ∧ wfFields rest = true := by
      simpa [wfFields] using hwf
    by_cases hk : k' = k
    · have hv : v' = v := by simpa [jlookup, hk] using hlook
      exact hv ▸ hwf'.1
    · exact ih k v hwf'.2 (by simpa [jlookup, hk] using hlook)

theorem wfList_jnth :
    ∀ (l : JList) (i : Nat) (v : JValue),
      wfList l = true → jnthList l i = some v → wfJ v = true := by
  intro l
  induction l using jlistSpineInduction with
  | hnil => intro i v _ hnth; cases i <;> exact absurd hnth (by simp [jnthList])
  | hcons v' rest ih =>
    intro i v hwf hnth
    have hwf' : wfJ v' = true ∧ wfList rest = true := by
      simpa [wfList] using hwf
    cases i with
    | zero =>
      have hv : v' = v := by simpa [jnthList] using hnth
      exact hv ▸ hwf'.1
    | succ n => exact ih n v hwf'.2 (by simpa [jnthList] using hnth)

theorem lastEmit_plain_of_lookup (d : Bool) :
    ∀ (f : JFields) (k : String) (v : JValue),
      nodupKeys (jkeys f) = true → endsWithAr k = false →
      jlookup f k = some v → (d = true → (k ++ "Ar") ∉ jkeys f) →
      lastEmit d f k = some (processObject d v) := by
  intro f
  induction f using jfieldsSpineInduction with
  | hnil => intro k v _ _ hlook _; exact absurd hlook (by simp [jlookup])
  | hcons k' v' rest ih =>
    intro k v hnodup hkAr hlook hside
    obtain ⟨hknotin, hnodup'⟩ := nodupKeys_cons.mp (by simpa [jkeys] using hnodup)
    by_cases hk : k' = k
    · subst hk
      have hv : v' = v := by simpa [jlookup] using hlook
      have hrest : lastEmit d rest k' = none := by
        cases d with
        | false => exact lastEmit_false_eq_none rest k' (Or.inr hknotin)
        | true =>
          exact lastEmit_true_eq_none rest k' (Or.inr hknotin)
            (fun hh => hside rfl (by simp [jkeys, hh]))
      rw [lastEmit_cons, hrest]
      have hout : outKey d k' = some k' := by simp [outKey, hkAr]
      simp [hout, hkAr, hv]
    · have hlook' : jlookup rest k = some v := by simpa [jlookup, hk] using hlook
      have hside' : d = true → (k ++ "Ar") ∉ jkeys rest :=
        fun hd hh => hside hd (by simp [jkeys, hh])
      rw [lastEmit_cons, ih k v hnodup' hkAr hlook' hside']

theorem lastEmit_jappend (d : Bool) (a : String) :
    ∀ (f g : JFields),
      lastEmit d (jappend f g) a
        = match lastEmit d g a with
          | some u => some u
          | none => lastEmit d f a := by
  intro f g
  induction f using jfieldsSpineInduction with
  | hnil =>
    rw [show jappend .nil g = g from rfl]
    cases hg : lastEmit d g a <;> simp [lastEmit]
  | hcons k v rest ih =>
    rw [show jappend (.cons k v rest) g = .cons k v (jappend rest g) from rfl,
      lastEmit_cons, ih]
    cases hg : lastEmit d g a with
    | some u => simp
    | none => rw [lastEmit_cons]

/-- The descent steps the formatter preserves: through a plain (non-`Ar`)
key — whose `Ar` counterpart must be absent when the direction is `rtl`,
since the raw `Ar` value would otherwise replace the processed base — or
through an array element.  The reflexive-transitive closure reaches every
object the amended C2 claim speaks about. -/
inductive FmtReach (d : Bool) : JValue → JValue → Prop where
  | refl (v : JValue) : FmtReach d v v
  | key (f : JFields) (k : String) (v u : JValue) :
      jlookup f k = some v → endsWithAr k = false →
      (d = true → (k ++ "Ar") ∉ jkeys f) →
      FmtReach d v u → FmtReach d (.obj f) u
  | elem (items : JList) (i : Nat) (v u : JValue) :
      jnthList items i = some v →
      FmtReach d v u → FmtReach d (.arr items) u

/-- Plain sub-value relation: descend through any object key or any array
element. -/
inductive SubVal : JValue → JValue → Prop where
  | refl (v : JValue) : SubVal v v
  | key (f : JFields) (k : String) (v u : JValue) :
      jlookup f k = some v → SubVal v u → SubVal (.obj f) u
  | elem (items : JList) (i : Nat) (v u : JValue) :
      jnthList items i = some v → SubVal v u → SubVal (.arr items) u

theorem processObject_subval (d : Bool) :
    ∀ (r u : JValue), FmtReach d r u → wfJ r = true →
      SubVal (processObject d r) (processObject d u) := by
  intro r u hreach
  induction hreach with
  | refl v => intro _; exact SubVal.refl _
  | key f k v u hlook hkAr hside _ ih =>
    intro hwf
    have hw : nodupKeys (jkeys f) = true ∧ wfFields f = true := by
      simpa [wfJ] using hwf
    have hwv : wfJ v = true := wfFields_jlookup f k v hw.2 hlook
    have hlast := lastEmit_plain_of_lookup d f k v hw.1 hkAr hlook hside
    have hout : jlookup (processFields d f .nil) k
        = some (processObject d v) :=
      jlookup_processFields_some f hlast .nil
    exact SubVal.key _ k _ _ hout (ih hwv)
  | elem items i v u hnth _ ih =>
    intro hwf
    have hw : wfList items = true := by simpa [wfJ] using hwf
    have hwv : wfJ v = true := wfList_jnth items i v hw hnth
    have hout : jnthList (processList d items) i
        = some (processObject d v) := by
      rw [jnthList_processList d items i, hnth]
      rfl
    exact SubVal.elem _ i _ _ hout (ih hwv)

/-- C2: the traversal facts that do hold, at arbitrary depth and in
arbitrary objects: scalars pass through unchanged; arrays are processed
element-wise at every index; every value reached through array elements
and plain keys (under `rtl`, plain keys without an `Ar` counterpart)
appears processed in the output (so collapse applies in every such
object); within any object, under `ltr` a plain key keeps its recursively
processed value and every `Ar` entry is dropped, while under `rtl` an
entry `k ++ "Ar"` binds `k` to its raw value whenever no later entry
re-emits `k`, a plain key without `Ar` counterpart keeps its recursively
processed value, and `k ++ "Ar"` is absent unless some `k ++ "ArAr"` key
re-creates it; but the value selected from an `Ar`-suffixed key under
`rtl` is copied verbatim, without recursive processing. -/
theorem c2_traversal :
    (∀ (d : Bool) (p : Prim), processObject d (.prim p) = .prim p)
    ∧ (∀ (d : Bool) (items : JList) (i : Nat),
        jnthList (processList d items) i
          = (jnthList items i).map (processObject d))
    ∧ (∀ (d : Bool) (r u : JValue), wfJ r = true → FmtReach d r u →
        SubVal (processObject d r) (processObject d u))
    ∧ (∀ (f : JFields) (k : String) (v : JValue),
        nodupKeys (jkeys f) = true → endsWithAr k = false →
        jlookup f k = some v →
        jlookup (processFields false f .nil) k
            = some (processObject false v)
          ∧ jlookup (processFields false f .nil) (k ++ "Ar") = none)
    ∧ (∀ (f : JFields) (k : String) (v : JValue),
        nodupKeys (jkeys f) = true → endsWithAr k = false →
        jlookup f k = some v → (k ++ "Ar") ∉ jkeys f →
        jlookup (processFields true f .nil) k
          = some (processObject true v))
    ∧ (∀ (f₁ f₂ : JFields) (k : String) (w : JValue),
        nodupKeys (jkeys (jappend f₁ (.cons (k ++ "Ar") w f₂))) = true →
        k ∉ jkeys f₂ →
        jlookup (processFields true (jappend f₁ (.cons (k ++ "Ar") w f₂)) .nil) k
          = some w)
    ∧ (∀ (f : JFields) (k : String),
        (k ++ "ArAr") ∉ jkeys f →
        jlookup (processFields true f .nil) (k ++ "Ar") = none)
    ∧ (∀ (k : String) (u : JValue),
        processObject true (.obj (.cons (k ++ "Ar") u .nil))
          = .obj (.cons k u .nil)) := by
  refine ⟨fun d p => rfl, jnthList_processList, ?_, ?_, ?_, ?_, ?_, ?_⟩
  · intro d r u hwf hreach
    exact processObject_subval d r u hreach hwf
  · intro f k v hnodup hkAr hlook
    constructor
    · exact jlookup_processFields_some f
        (lastEmit_plain_of_lookup false f k v hnodup hkAr hlook
          (fun hd => Bool.noConfusion hd)) _
    · rw [jlookup_processFields_none f
        (lastEmit_false_eq_none f (k ++ "Ar") (Or.inl (endsWithAr_append k)))]
      rfl
  · intro f k v hnodup hkAr hlook hpartner
    exact jlookup_processFields_some f
      (lastEmit_plain_of_lookup true f k v hnodup hkAr hlook
        (fun _ => hpartner)) _
  · intro f₁ f₂ k w hnodup hknot
    rw [jkeys_jappend] at hnodup
    have hnodup₂ : nodupKeys (jkeys (JFields.cons (k ++ "Ar") w f₂)) = true :=
      nodupKeys_append_right _ _ hnodup
    have hArnot : (k ++ "Ar") ∉ jkeys f₂ :=
      (nodupKeys_cons.mp (by simpa [jkeys] using hnodup₂)).1
    have hf₂ : lastEmit true f₂ k = none :=
      lastEmit_true_eq_none f₂ k (Or.inr hknot) hArnot
    have hlastg : lastEmit true (JFields.cons (k ++ "Ar") w f₂) k = some w := by
      rw [lastEmit_cons, hf₂]
      have hout : outKey true (k ++ "Ar") = some k := by
        simp [outKey, endsWithAr_append, sliceDropTwo_append]
      simp [hout, endsWithAr_append]
    have hlast : lastEmit true (jappend f₁ (.cons (k ++ "Ar") w f₂)) k
        = some w := by
      rw [lastEmit_jappend true k f₁ (.cons (k ++ "Ar") w f₂), hlastg]
    exact jlookup_processFields_some _ hlast _
  · intro f k hArAr
    have hassoc : (k ++ "Ar") ++ "Ar" = k ++ "ArAr" := by
      rw [String.append_assoc]
      rfl
    rw [jlookup_processFields_none f
      (lastEmit_true_eq_none f (k ++ "Ar") (Or.inl (endsWithAr_append k))
        (hassoc ▸ hArAr))]
    rfl
  · intro k u
    rw [show processObject true (.obj (.cons (k ++ "Ar") u .nil))
        = .obj (processFields true (.cons (k ++ "Ar") u .nil) .nil) from rfl,
      processFields_cons_ar_rtl (endsWithAr_append k), sliceDropTwo_append]
    rfl

/-- C2 witness: under `rtl`, the payload `{a: {x: 1, xAr: 2}}` reaches its
inner object through the plain key `a`; plus concrete instances of the
per-object clauses: `ltr` keeping `x` and dropping `xAr`; `rtl` keeping a
partnerless `x`; `rtl` collapsing `{x: 1, xAr: 2}` to `x = 2`; `xAr`
absent with no `xArAr` key; and the verbatim `Ar`-value copy. -/
theorem c2_traversal_witness :
    SubVal
      (processObject true (.obj (.cons "a"
        (.obj (.cons "x" (.prim (.pnum 1))
          (.cons "xAr" (.prim (.pnum 2)) .nil))) .nil)))
      (processObject true (.obj (.cons "x" (.prim (.pnum 1))
        (.cons "xAr" (.prim (.pnum 2)) .nil))))
    ∧ (jlookup (processFields false
          (.cons "x" (.prim (.pnum 1)) (.cons "xAr" (.prim (.pnum 2)) .nil))
          .nil) "x"
        = some (processObject false (.prim (.pnum 1)))
      ∧ jlookup (processFields false
          (.cons "x" (.prim (.pnum 1)) (.cons "xAr" (.prim (.pnum 2)) .nil))
          .nil) ("x" ++ "Ar")
        = none)
    ∧ jlookup (processFields true (.cons "x" (.prim (.pnum 1)) .nil) .nil) "x"
        = some (processObject true (.prim (.pnum 1)))
    ∧ jlookup (processFields true
        (jappend (.cons "x" (.prim (.pnum 1)) .nil)
          (.cons ("x" ++ "Ar") (.prim (.pnum 2)) .nil)) .nil) "x"
        = some (.prim (.pnum 2))
    ∧ jlookup (processFields true (.cons "xAr" (.prim (.pnum 2)) .nil) .nil)
        ("x" ++ "Ar")
        = none :=
  ⟨c2_traversal.2.2.1 true
      (.obj (.cons "a" (.obj (.cons "x" (.prim (.pnum 1))
        (.cons "xAr" (.prim (.pnum 2)) .nil))) .nil))
      (.obj (.cons "x" (.prim (.pnum 1)) (.cons "xAr" (.prim (.pnum 2)) .nil)))
      (by decide)
      (FmtReach.key _ "a" _ _ (by decide) (by decide) (fun _ => by decide)
        (FmtReach.refl _)),
   c2_traversal.2.2.2.1
      (.cons "x" (.prim (.pnum 1)) (.cons "xAr" (.prim (.pnum 2)) .nil))
      "x" (.prim (.pnum 1)) (by decide) (by decide) (by decide),
   c2_traversal.2.2.2.2.1 (.cons "x" (.prim (.pnum 1)) .nil)
      "x" (.prim (.pnum 1)) (by decide) (by decide) (by decide) (by decide),
   c2_traversal.2.2.2.2.2.1 (.cons "x" (.prim (.pnum 1)) .nil) .nil
      "x" (.prim (.pnum 2)) (by decide) (by decide),
   c2_traversal.2.2.2.2.2.2.1 (.cons "xAr" (.prim (.pnum 2)) .nil)
      "x" (by decide)⟩
